import Mathlib

/-!
# Verification of the phys305 root-finding core

Shallow embedding of the root-finding solvers of the repository
(`bisection`, `newton`, `secant`, `newton_system`) and of the `RK4`
integrator, together with theorems settling the specification claims.

Scalar floating-point values are modelled by `ℚ` (exact arithmetic);
the control flow of each solver is translated verbatim from the Python
source.  Python `raise ValueError` outcomes are modelled by dedicated
result constructors, and the unbounded `while` loop of `bisection` is
modelled with an explicit fuel parameter whose exhaustion is a separate
`timeout` outcome (so that termination of the Python loop is exactly the
statement that for enough fuel the result is never `timeout`).
-/

/-! ## Newton-Raphson (scalar), from `def newton(f, df, x0, tol=1e-6, imax=100)` -/

/-- Result of a `newton` call: a returned value, the
`ValueError("Derivative is zero. No convergence.")`, or the
`ValueError("Maximum iterations reached without convergence")`. -/
inductive NRes where
  | ok : ℚ → NRes
  | zeroDeriv : NRes
  | noConv : NRes
deriving DecidableEq

/-- Embedding of `newton(f, df, x0, tol, imax)` from the source:
```
for _ in range(imax):
    f0, df0 = f(x0), df(x0)
    if df0 == 0:
        raise ValueError("Derivative is zero. No convergence.")
    x = x0 - f0 / df0
    if abs(x - x0) < tol:
        return x
    x0 = x
raise ValueError("Maximum iterations reached without convergence")
``` -/
def newton (f df : ℚ → ℚ) : ℚ → ℚ → Nat → NRes
  | _, _, 0 => .noConv
  | x0, tol, imax + 1 =>
    if df x0 = 0 then .zeroDeriv
    else
      if |x0 - f x0 / df x0 - x0| < tol then .ok (x0 - f x0 / df x0)
      else newton f df (x0 - f x0 / df x0) tol imax

/-- `newtonOrbit f df tol k x0 = some y` iff the loop of `newton`, started at
`x0`, runs `k` full iterations without raising or returning and its iterate is
then `y`. -/
def newtonOrbit (f df : ℚ → ℚ) (tol : ℚ) : Nat → ℚ → Option ℚ
  | 0, x0 => some x0
  | k + 1, x0 =>
    if df x0 = 0 then none
    else
      if |x0 - f x0 / df x0 - x0| < tol then none
      else newtonOrbit f df tol k (x0 - f x0 / df x0)

theorem newton_succ_zeroDeriv {f df : ℚ → ℚ} {x0 tol : ℚ} {m : Nat}
    (hdf : df x0 = 0) : newton f df x0 tol (m + 1) = NRes.zeroDeriv := by
  simp only [newton]; rw [if_pos hdf]

theorem newton_succ_conv {f df : ℚ → ℚ} {x0 tol : ℚ} {m : Nat}
    (hdf : ¬ df x0 = 0) (hconv : |x0 - f x0 / df x0 - x0| < tol) :
    newton f df x0 tol (m + 1) = NRes.ok (x0 - f x0 / df x0) := by
  simp only [newton]; rw [if_neg hdf, if_pos hconv]

theorem newton_succ_step {f df : ℚ → ℚ} {x0 tol : ℚ} {m : Nat}
    (hdf : ¬ df x0 = 0) (hconv : ¬ |x0 - f x0 / df x0 - x0| < tol) :
    newton f df x0 tol (m + 1) = newton f df (x0 - f x0 / df x0) tol m := by
  simp only [newton]; rw [if_neg hdf, if_neg hconv]

theorem newtonOrbit_succ_zeroDeriv {f df : ℚ → ℚ} {x0 tol : ℚ} {k : Nat}
    (hdf : df x0 = 0) : newtonOrbit f df tol (k + 1) x0 = none := by
  simp only [newtonOrbit]; rw [if_pos hdf]

theorem newtonOrbit_succ_conv {f df : ℚ → ℚ} {x0 tol : ℚ} {k : Nat}
    (hdf : ¬ df x0 = 0) (hconv : |x0 - f x0 / df x0 - x0| < tol) :
    newtonOrbit f df tol (k + 1) x0 = none := by
  simp only [newtonOrbit]; rw [if_neg hdf, if_pos hconv]

theorem newtonOrbit_succ_step {f df : ℚ → ℚ} {x0 tol : ℚ} {k : Nat}
    (hdf : ¬ df x0 = 0) (hconv : ¬ |x0 - f x0 / df x0 - x0| < tol) :
    newtonOrbit f df tol (k + 1) x0 = newtonOrbit f df tol k (x0 - f x0 / df x0) := by
  simp only [newtonOrbit]; rw [if_neg hdf, if_neg hconv]

/-- C1: `newton` has exactly the three outcomes of `NRes`: it returns the
value `xp - f xp / df xp` computed from the last iterate `xp` exactly when
at some iteration the step from the reached iterate `xp` is defined
(`df xp ≠ 0`) and the successive-iterate difference drops below `tol`; it
raises the zero-derivative error exactly when the derivative is exactly
zero at a reached iterate within the budget; and it raises the
no-convergence error exactly when all `imax` iterations complete without
returning or raising. -/
theorem newton_outcome_trichotomy (f df : ℚ → ℚ) (x0 tol : ℚ) (imax : Nat) :
    ((∃ x, newton f df x0 tol imax = NRes.ok x) ↔
      ∃ k, k < imax ∧ ∃ xp, newtonOrbit f df tol k x0 = some xp ∧ df xp ≠ 0 ∧
        |xp - f xp / df xp - xp| < tol ∧
        newton f df x0 tol imax = NRes.ok (xp - f xp / df xp)) ∧
    (newton f df x0 tol imax = NRes.zeroDeriv ↔
      ∃ k, k < imax ∧ ∃ y, newtonOrbit f df tol k x0 = some y ∧ df y = 0) ∧
    (newton f df x0 tol imax = NRes.noConv ↔
      ∃ y, newtonOrbit f df tol imax x0 = some y) := by
  induction imax generalizing x0 with
  | zero =>
    refine ⟨?_, ?_, ?_⟩ <;> simp [newton, newtonOrbit]
  | succ m ih =>
    by_cases hdf : df x0 = 0
    · refine ⟨?_, ?_, ?_⟩
      · rw [newton_succ_zeroDeriv hdf]
        constructor
        · rintro ⟨x, hx⟩; exact absurd hx (by simp)
        · rintro ⟨k, hk, xp, horb, hne, -, -⟩
          cases k with
          | zero =>
            simp only [newtonOrbit, Option.some.injEq] at horb
            exact absurd (horb ▸ hdf) hne
          | succ j => rw [newtonOrbit_succ_zeroDeriv hdf] at horb; exact absurd horb (by simp)
      · rw [newton_succ_zeroDeriv hdf]
        constructor
        · intro _; exact ⟨0, Nat.succ_pos m, x0, rfl, hdf⟩
        · intro _; rfl
      · rw [newton_succ_zeroDeriv hdf]
        constructor
        · intro h; exact absurd h (by simp)
        · rintro ⟨y, horb⟩
          rw [newtonOrbit_succ_zeroDeriv hdf] at horb; exact absurd horb (by simp)
    · by_cases hconv : |x0 - f x0 / df x0 - x0| < tol
      · have hres : newton f df x0 tol (m + 1) = NRes.ok (x0 - f x0 / df x0) :=
          newton_succ_conv hdf hconv
        refine ⟨?_, ?_, ?_⟩
        · rw [hres]
          constructor
          · intro _; exact ⟨0, Nat.succ_pos m, x0, rfl, hdf, hconv, rfl⟩
          · rintro ⟨k, hk, xp, horb, hne, hlt, heq⟩; exact ⟨_, heq⟩
        · rw [hres]
          constructor
          · intro h; exact absurd h (by simp)
          · rintro ⟨k, hk, y, horb, hzero⟩
            cases k with
            | zero =>
              simp only [newtonOrbit, Option.some.injEq] at horb
              exact absurd (horb ▸ hzero) hdf
            | succ j =>
              rw [newtonOrbit_succ_conv hdf hconv] at horb; exact absurd horb (by simp)
        · rw [hres]
          constructor
          · intro h; exact absurd h (by simp)
          · rintro ⟨y, horb⟩
            rw [newtonOrbit_succ_conv hdf hconv] at horb; exact absurd horb (by simp)
      · have hres : newton f df x0 tol (m + 1) =
            newton f df (x0 - f x0 / df x0) tol m :=
          newton_succ_step hdf hconv
        have horbstep : ∀ k, newtonOrbit f df tol (k + 1) x0 =
            newtonOrbit f df tol k (x0 - f x0 / df x0) :=
          fun k => newtonOrbit_succ_step hdf hconv
        obtain ⟨ih1, ih2, ih3⟩ := ih (x0 - f x0 / df x0)
        refine ⟨?_, ?_, ?_⟩
        · rw [hres, ih1]
          constructor
          · rintro ⟨k, hk, xp, horb, hne, hlt, heq⟩
            exact ⟨k + 1, by omega, xp, by rw [horbstep]; exact horb, hne, hlt, heq⟩
          · rintro ⟨k, hk, xp, horb, hne, hlt, heq⟩
            cases k with
            | zero =>
              simp only [newtonOrbit, Option.some.injEq] at horb
              exact absurd (horb ▸ hlt) hconv
            | succ j =>
              exact ⟨j, by omega, xp, by rw [← horbstep]; exact horb, hne, hlt, heq⟩
        · rw [hres, ih2]
          constructor
          · rintro ⟨k, hk, y, horb, hzero⟩
            exact ⟨k + 1, by omega, y, by rw [horbstep]; exact horb, hzero⟩
          · rintro ⟨k, hk, y, horb, hzero⟩
            cases k with
            | zero =>
              simp only [newtonOrbit, Option.some.injEq] at horb
              exact absurd (horb ▸ hzero) hdf
            | succ j =>
              exact ⟨j, by omega, y, by rw [← horbstep]; exact horb, hzero⟩
        · rw [hres, ih3]
          constructor
          · rintro ⟨y, horb⟩
            exact ⟨y, by rw [horbstep]; exact horb⟩
          · rintro ⟨y, horb⟩
            exact ⟨y, by rw [← horbstep]; exact horb⟩

/-- Witness for C1: a concrete converging run.  With `f = id`, `df = 1`,
`x0 = 1`, `tol = 2`, the first iteration computes `x = 0` and
`|0 - 1| < 2`, so the theorem produces the reached-iterate description. -/
theorem newton_outcome_trichotomy_witness :
    ∃ k, k < 100 ∧ ∃ xp, newtonOrbit (fun t => t) (fun _ => 1) 2 k 1 = some xp ∧
      (fun _ : ℚ => (1 : ℚ)) xp ≠ 0 ∧
      |xp - (fun t => t) xp / (fun _ => (1 : ℚ)) xp - xp| < 2 ∧
      newton (fun t => t) (fun _ => 1) 1 2 100 =
        NRes.ok (xp - (fun t => t) xp / (fun _ => (1 : ℚ)) xp) :=
  (newton_outcome_trichotomy (fun t => t) (fun _ => 1) 1 2 100).1.mp
    ⟨0, by rw [newton_succ_conv (by norm_num) (by norm_num)]; norm_num⟩

/-- C6: with a zero derivative at the initial guess the very first iteration
of `newton` raises the zero-derivative error (the `df0 == 0` guard precedes
the division `f0 / df0`, which is therefore never attempted). -/
theorem newton_zero_derivative_guard (f df : ℚ → ℚ) (x0 tol : ℚ) (imax : Nat)
    (hdf : df x0 = 0) (himax : 0 < imax) :
    newton f df x0 tol imax = NRes.zeroDeriv := by
  cases imax with
  | zero => omega
  | succ m => exact newton_succ_zeroDeriv hdf

/-- Witness for C6: `df = 0` everywhere, initial guess `0`, one iteration. -/
theorem newton_zero_derivative_guard_witness :
    newton (fun t => t) (fun _ => 0) 0 1 1 = NRes.zeroDeriv :=
  newton_zero_derivative_guard (fun t => t) (fun _ => 0) 0 1 1 rfl Nat.one_pos

/-! ## Secant method, from `def secant(f, x0, x1, tol=1e-6, imax=100)` -/

/-- Result of a `secant` call: a returned value, the
`ValueError("Division by zero in secant method.")`, or the
`ValueError("Maximum iterations reached without convergence")`. -/
inductive SRes where
  | ok : ℚ → SRes
  | divZero : SRes
  | noConv : SRes
deriving DecidableEq

/-- Embedding of `secant(f, x0, x1, tol, imax)` from the source:
```
for _ in range(imax):
    f0, f1 = f(x0), f(x1)
    if f0 == f1:
        raise ValueError("Division by zero in secant method.")
    x2 = x1 - f1 * (x1 - x0) / (f1 - f0)
    if abs(x2 - x1) < tol:
        return x2
    x0, x1 = x1, x2
raise ValueError("Maximum iterations reached without convergence")
``` -/
def secant (f : ℚ → ℚ) : ℚ → ℚ → ℚ → Nat → SRes
  | _, _, _, 0 => .noConv
  | x0, x1, tol, imax + 1 =>
    if f x0 = f x1 then .divZero
    else
      if |x1 - f x1 * (x1 - x0) / (f x1 - f x0) - x1| < tol then
        .ok (x1 - f x1 * (x1 - x0) / (f x1 - f x0))
      else secant f x1 (x1 - f x1 * (x1 - x0) / (f x1 - f x0)) tol imax

/-- `secantOrbit f tol k (x0, x1) = some p` iff the loop of `secant`, started
on the pair `(x0, x1)`, runs `k` full iterations without raising or returning
and its pair of current points is then `p`. -/
def secantOrbit (f : ℚ → ℚ) (tol : ℚ) : Nat → ℚ × ℚ → Option (ℚ × ℚ)
  | 0, p => some p
  | k + 1, (x0, x1) =>
    if f x0 = f x1 then none
    else
      if |x1 - f x1 * (x1 - x0) / (f x1 - f x0) - x1| < tol then none
      else secantOrbit f tol k (x1, x1 - f x1 * (x1 - x0) / (f x1 - f x0))

theorem secant_succ_divZero {f : ℚ → ℚ} {x0 x1 tol : ℚ} {m : Nat}
    (h : f x0 = f x1) : secant f x0 x1 tol (m + 1) = SRes.divZero := by
  simp only [secant]; rw [if_pos h]

theorem secant_succ_conv {f : ℚ → ℚ} {x0 x1 tol : ℚ} {m : Nat}
    (h : ¬ f x0 = f x1)
    (hconv : |x1 - f x1 * (x1 - x0) / (f x1 - f x0) - x1| < tol) :
    secant f x0 x1 tol (m + 1) =
      SRes.ok (x1 - f x1 * (x1 - x0) / (f x1 - f x0)) := by
  simp only [secant]; rw [if_neg h, if_pos hconv]

theorem secant_succ_step {f : ℚ → ℚ} {x0 x1 tol : ℚ} {m : Nat}
    (h : ¬ f x0 = f x1)
    (hconv : ¬ |x1 - f x1 * (x1 - x0) / (f x1 - f x0) - x1| < tol) :
    secant f x0 x1 tol (m + 1) =
      secant f x1 (x1 - f x1 * (x1 - x0) / (f x1 - f x0)) tol m := by
  simp only [secant]; rw [if_neg h, if_neg hconv]

theorem secantOrbit_succ_divZero {f : ℚ → ℚ} {tol a b : ℚ} {k : Nat}
    (h : f a = f b) : secantOrbit f tol (k + 1) (a, b) = none := by
  simp only [secantOrbit]; rw [if_pos h]

theorem secantOrbit_succ_conv {f : ℚ → ℚ} {tol a b : ℚ} {k : Nat}
    (h : ¬ f a = f b)
    (hconv : |b - f b * (b - a) / (f b - f a) - b| < tol) :
    secantOrbit f tol (k + 1) (a, b) = none := by
  simp only [secantOrbit]; rw [if_neg h, if_pos hconv]

theorem secantOrbit_succ_step {f : ℚ → ℚ} {tol a b : ℚ} {k : Nat}
    (h : ¬ f a = f b)
    (hconv : ¬ |b - f b * (b - a) / (f b - f a) - b| < tol) :
    secantOrbit f tol (k + 1) (a, b) =
      secantOrbit f tol k (b, b - f b * (b - a) / (f b - f a)) := by
  simp only [secantOrbit]; rw [if_neg h, if_neg hconv]

/-- C5: `secant` raises the division-by-zero error exactly when the two
current consecutive function values coincide at some reached iteration
within the budget; otherwise each iteration computes
`x2 = x1 - f x1 * (x1 - x0) / (f x1 - f x0)` from the reached pair, returns
`x2` exactly when `|x2 - x1| < tol`, and raises the no-convergence error
exactly when all `imax` iterations complete without returning or raising. -/
theorem secant_outcome_trichotomy (f : ℚ → ℚ) (x0 x1 tol : ℚ) (imax : Nat) :
    ((∃ x, secant f x0 x1 tol imax = SRes.ok x) ↔
      ∃ k, k < imax ∧ ∃ p, secantOrbit f tol k (x0, x1) = some p ∧
        f p.1 ≠ f p.2 ∧
        |p.2 - f p.2 * (p.2 - p.1) / (f p.2 - f p.1) - p.2| < tol ∧
        secant f x0 x1 tol imax =
          SRes.ok (p.2 - f p.2 * (p.2 - p.1) / (f p.2 - f p.1))) ∧
    (secant f x0 x1 tol imax = SRes.divZero ↔
      ∃ k, k < imax ∧ ∃ p, secantOrbit f tol k (x0, x1) = some p ∧
        f p.1 = f p.2) ∧
    (secant f x0 x1 tol imax = SRes.noConv ↔
      ∃ p, secantOrbit f tol imax (x0, x1) = some p) := by
  induction imax generalizing x0 x1 with
  | zero =>
    refine ⟨?_, ?_, ?_⟩ <;> simp [secant, secantOrbit]
  | succ m ih =>
    by_cases hdz : f x0 = f x1
    · refine ⟨?_, ?_, ?_⟩
      · rw [secant_succ_divZero hdz]
        constructor
        · rintro ⟨x, hx⟩; exact absurd hx (by simp)
        · rintro ⟨k, hk, p, horb, hne, -, -⟩
          cases k with
          | zero =>
            simp only [secantOrbit, Option.some.injEq] at horb
            subst horb
            exact absurd hdz hne
          | succ j =>
            rw [secantOrbit_succ_divZero hdz] at horb; exact absurd horb (by simp)
      · rw [secant_succ_divZero hdz]
        constructor
        · intro _; exact ⟨0, Nat.succ_pos m, (x0, x1), rfl, hdz⟩
        · intro _; rfl
      · rw [secant_succ_divZero hdz]
        constructor
        · intro h; exact absurd h (by simp)
        · rintro ⟨p, horb⟩
          rw [secantOrbit_succ_divZero hdz] at horb; exact absurd horb (by simp)
    · by_cases hconv : |x1 - f x1 * (x1 - x0) / (f x1 - f x0) - x1| < tol
      · have hres : secant f x0 x1 tol (m + 1) =
            SRes.ok (x1 - f x1 * (x1 - x0) / (f x1 - f x0)) :=
          secant_succ_conv hdz hconv
        refine ⟨?_, ?_, ?_⟩
        · rw [hres]
          constructor
          · intro _; exact ⟨0, Nat.succ_pos m, (x0, x1), rfl, hdz, hconv, rfl⟩
          · rintro ⟨k, hk, p, horb, hne, hlt, heq⟩; exact ⟨_, heq⟩
        · rw [hres]
          constructor
          · intro h; exact absurd h (by simp)
          · rintro ⟨k, hk, p, horb, hzero⟩
            cases k with
            | zero =>
              simp only [secantOrbit, Option.some.injEq] at horb
              subst horb
              exact absurd hzero hdz
            | succ j =>
              rw [secantOrbit_succ_conv hdz hconv] at horb; exact absurd horb (by simp)
        · rw [hres]
          constructor
          · intro h; exact absurd h (by simp)
          · rintro ⟨p, horb⟩
            rw [secantOrbit_succ_conv hdz hconv] at horb; exact absurd horb (by simp)
      · have hres : secant f x0 x1 tol (m + 1) =
            secant f x1 (x1 - f x1 * (x1 - x0) / (f x1 - f x0)) tol m :=
          secant_succ_step hdz hconv
        have horbstep : ∀ k, secantOrbit f tol (k + 1) (x0, x1) =
            secantOrbit f tol k (x1, x1 - f x1 * (x1 - x0) / (f x1 - f x0)) :=
          fun k => secantOrbit_succ_step hdz hconv
        obtain ⟨ih1, ih2, ih3⟩ := ih x1 (x1 - f x1 * (x1 - x0) / (f x1 - f x0))
        refine ⟨?_, ?_, ?_⟩
        · rw [hres, ih1]
          constructor
          · rintro ⟨k, hk, p, horb, hne, hlt, heq⟩
            exact ⟨k + 1, by omega, p, by rw [horbstep]; exact horb, hne, hlt, heq⟩
          · rintro ⟨k, hk, p, horb, hne, hlt, heq⟩
            cases k with
            | zero =>
              simp only [secantOrbit, Option.some.injEq] at horb
              subst horb
              exact absurd hlt hconv
            | succ j =>
              exact ⟨j, by omega, p, by rw [← horbstep]; exact horb, hne, hlt, heq⟩
        · rw [hres, ih2]
          constructor
          · rintro ⟨k, hk, p, horb, hzero⟩
            exact ⟨k + 1, by omega, p, by rw [horbstep]; exact horb, hzero⟩
          · rintro ⟨k, hk, p, horb, hzero⟩
            cases k with
            | zero =>
              simp only [secantOrbit, Option.some.injEq] at horb
              subst horb
              exact absurd hzero hdz
            | succ j =>
              exact ⟨j, by omega, p, by rw [← horbstep]; exact horb, hzero⟩
        · rw [hres, ih3]
          constructor
          · rintro ⟨p, horb⟩
            exact ⟨p, by rw [horbstep]; exact horb⟩
          · rintro ⟨p, horb⟩
            exact ⟨p, by rw [← horbstep]; exact horb⟩

/-- Witness for C5: a concrete converging run.  With `f = id`, `x0 = 0`,
`x1 = 1`, `tol = 2`, the first iteration computes `x2 = 0` and `|0 - 1| < 2`. -/
theorem secant_outcome_trichotomy_witness :
    ∃ k, k < 100 ∧ ∃ p, secantOrbit (fun t => t) 2 k ((0 : ℚ), (1 : ℚ)) = some p ∧
      (fun t => t) p.1 ≠ (fun t => t) p.2 ∧
      |p.2 - (fun t => t) p.2 * (p.2 - p.1) / ((fun t => t) p.2 - (fun t => t) p.1) - p.2| < 2 ∧
      secant (fun t => t) 0 1 2 100 =
        SRes.ok (p.2 - (fun t => t) p.2 * (p.2 - p.1) / ((fun t => t) p.2 - (fun t => t) p.1)) :=
  (secant_outcome_trichotomy (fun t => t) 0 1 2 100).1.mp
    ⟨0, by rw [secant_succ_conv (by norm_num) (by norm_num)]; norm_num⟩

/-! ## Approximate idempotence (C10) -/

/-- Counterexample to C10 as stated.  With the genuine pair
`f x = x^3 - 3x`, `df x = 3x^2 - 3`, tolerance `2` and initial guess
`-4/5`, `newton` converges on its first iteration and returns
`r = 128/135`.  Rerunning `newton` on the same problem from `r` does not
return within one iteration: the first step from `r` has size `≈ 6.57`,
far above the tolerance, so a one-iteration budget ends in the
no-convergence error rather than a value near `r`. -/
theorem newton_idempotence_counterexample :
    newton (fun x => x ^ 3 - 3 * x) (fun x => 3 * x ^ 2 - 3) (-4/5) 2 100 =
      NRes.ok (128/135) ∧
    newton (fun x => x ^ 3 - 3 * x) (fun x => 3 * x ^ 2 - 3) (128/135) 2 1 =
      NRes.noConv := by
  constructor
  · rw [newton_succ_conv (by norm_num) (by rw [abs_lt]; norm_num)]; norm_num
  · rw [newton_succ_step (by norm_num) (by rw [abs_lt]; norm_num)]
    simp only [newton]

/-- C10 (amended): when a repeated call with the converged value `r` as the
new initial guess does return on its very first iteration, the returned
value is within the tolerance of `r` — this holds for `newton` and for
`secant` (with `r` as the newer of the two points).  The unamended claim —
that the repeated call always returns within one iteration a value within
the tolerance — is refuted by `newton_idempotence_counterexample`. -/
theorem solver_repeat_one_iteration_close (f df : ℚ → ℚ) (r xp tol v : ℚ) :
    (newton f df r tol 1 = NRes.ok v → |v - r| < tol) ∧
    (secant f xp r tol 1 = SRes.ok v → |v - r| < tol) := by
  constructor
  · intro h
    by_cases hdf : df r = 0
    · rw [newton_succ_zeroDeriv hdf] at h; exact absurd h (by simp)
    · by_cases hconv : |r - f r / df r - r| < tol
      · rw [newton_succ_conv hdf hconv] at h
        have hv : v = r - f r / df r := by
          have := h.symm
          simpa using this
        rw [hv]; exact hconv
      · rw [newton_succ_step hdf hconv] at h; exact absurd h (by simp [newton])
  · intro h
    by_cases hdz : f xp = f r
    · rw [secant_succ_divZero hdz] at h; exact absurd h (by simp)
    · by_cases hconv : |r - f r * (r - xp) / (f r - f xp) - r| < tol
      · rw [secant_succ_conv hdz hconv] at h
        have hv : v = r - f r * (r - xp) / (f r - f xp) := by
          have := h.symm
          simpa using this
        rw [hv]; exact hconv
      · rw [secant_succ_step hdz hconv] at h; exact absurd h (by simp [secant])

/-- Witness for the amended C10: `newton` with `f = id`, `df = 1`, restart
at `r = 1`, one iteration returns `0`, and `|0 - 1| < 2`. -/
theorem solver_repeat_one_iteration_close_witness : |(0 : ℚ) - 1| < 2 :=
  (solver_repeat_one_iteration_close (fun t => t) (fun _ => 1) 1 0 2 0).1
    (by rw [newton_succ_conv (by norm_num) (by norm_num)]; norm_num)

/-! ## Bisection, from `def bisection(f, l, h, tol=1e-6)` -/

/-- Result of a `bisection` call: the
`ValueError("f(a) and f(b) must have opposite signs")`, a fuel-exhaustion
marker (the Python `while` loop is still running), or a returned value. -/
inductive BRes (α : Type) where
  | invalidInput : BRes α
  | timeout : BRes α
  | value : α → BRes α
deriving DecidableEq

/-- Embedding of the `while` loop of `bisection`, with explicit fuel:
```
while h - l > 2*tol:
    m = (l + h) / 2
    if f(m) == 0:
        return m  # m is the root by definition
    elif f(l) * f(m) > 0:
        l = m
    else:
        h = m
return (l + h) / 2
```
`none` means the fuel ran out while the loop guard still held. -/
def bisectLoop {α : Type} [LinearOrderedField α] (f : α → α) (tol : α) :
    Nat → α → α → Option α
  | 0, l, h => if h - l > 2 * tol then none else some ((l + h) / 2)
  | fuel + 1, l, h =>
    if h - l > 2 * tol then
      if f ((l + h) / 2) = 0 then some ((l + h) / 2)
      else if f l * f ((l + h) / 2) > 0 then bisectLoop f tol fuel ((l + h) / 2) h
      else bisectLoop f tol fuel l ((l + h) / 2)
    else some ((l + h) / 2)

/-- Embedding of `bisection(f, l, h, tol)`: the guard
`if f(l) * f(h) >= 0: raise ValueError(...)` followed by the loop. -/
def bisection {α : Type} [LinearOrderedField α] (f : α → α) (l h tol : α)
    (fuel : Nat) : BRes α :=
  if f l * f h ≥ 0 then .invalidInput
  else match bisectLoop f tol fuel l h with
    | none => .timeout
    | some r => .value r

theorem bisectLoop_stop {α : Type} [LinearOrderedField α] {f : α → α}
    {tol l h : α} (fuel : Nat) (hguard : ¬ h - l > 2 * tol) :
    bisectLoop f tol fuel l h = some ((l + h) / 2) := by
  cases fuel with
  | zero => simp only [bisectLoop]; rw [if_neg hguard]
  | succ n => simp only [bisectLoop]; rw [if_neg hguard]

theorem bisectLoop_zero_run {α : Type} [LinearOrderedField α] {f : α → α}
    {tol l h : α} (hguard : h - l > 2 * tol) :
    bisectLoop f tol 0 l h = none := by
  simp only [bisectLoop]; rw [if_pos hguard]

theorem bisectLoop_succ_root {α : Type} [LinearOrderedField α] {f : α → α}
    {tol l h : α} {fuel : Nat} (hguard : h - l > 2 * tol)
    (hroot : f ((l + h) / 2) = 0) :
    bisectLoop f tol (fuel + 1) l h = some ((l + h) / 2) := by
  simp only [bisectLoop]; rw [if_pos hguard, if_pos hroot]

theorem bisectLoop_succ_left {α : Type} [LinearOrderedField α] {f : α → α}
    {tol l h : α} {fuel : Nat} (hguard : h - l > 2 * tol)
    (hroot : ¬ f ((l + h) / 2) = 0) (hsgn : f l * f ((l + h) / 2) > 0) :
    bisectLoop f tol (fuel + 1) l h = bisectLoop f tol fuel ((l + h) / 2) h := by
  simp only [bisectLoop]; rw [if_pos hguard, if_neg hroot, if_pos hsgn]

theorem bisectLoop_succ_right {α : Type} [LinearOrderedField α] {f : α → α}
    {tol l h : α} {fuel : Nat} (hguard : h - l > 2 * tol)
    (hroot : ¬ f ((l + h) / 2) = 0) (hsgn : ¬ f l * f ((l + h) / 2) > 0) :
    bisectLoop f tol (fuel + 1) l h = bisectLoop f tol fuel l ((l + h) / 2) := by
  simp only [bisectLoop]; rw [if_pos hguard, if_neg hroot, if_neg hsgn]

/-- C3: `bisection` raises its input-validation error exactly when
`f l * f h ≥ 0`; in particular an endpoint that is already an exact root
(`f l = 0` or `f h = 0`) makes the product zero and so raises, and when
`f l * f h < 0` no input-validation error is raised. -/
theorem bisection_invalid_iff (f : ℚ → ℚ) (l h tol : ℚ) (fuel : Nat) :
    (bisection f l h tol fuel = BRes.invalidInput ↔ f l * f h ≥ 0) ∧
    ((f l = 0 ∨ f h = 0) → bisection f l h tol fuel = BRes.invalidInput) := by
  constructor
  · constructor
    · intro hres
      by_contra hge
      unfold bisection at hres
      rw [if_neg hge] at hres
      cases hbl : bisectLoop f tol fuel l h <;> rw [hbl] at hres <;>
        exact absurd hres (by simp)
    · intro hge
      unfold bisection
      rw [if_pos hge]
  · intro h0
    unfold bisection
    refine if_pos ?_
    rcases h0 with h0 | h0 <;> rw [h0] <;> simp

/-- Witness for C3: `f l = 0` at the endpoint `l = 0` of `[0, 1]` raises the
input-validation error instead of returning the exact root `0`. -/
theorem bisection_invalid_iff_witness :
    bisection (fun t => t) (0 : ℚ) 1 1 0 = BRes.invalidInput :=
  (bisection_invalid_iff (fun t => t) 0 1 1 0).2 (Or.inl rfl)

theorem bisectLoop_isSome_of_width {f : ℚ → ℚ} {tol : ℚ} :
    ∀ (fuel : Nat) (l h : ℚ), h - l ≤ 2 ^ fuel * (2 * tol) →
      ∃ r, bisectLoop f tol fuel l h = some r := by
  intro fuel
  induction fuel with
  | zero =>
    intro l h hw
    refine ⟨(l + h) / 2, bisectLoop_stop 0 ?_⟩
    simp only [pow_zero, one_mul] at hw
    exact not_lt.mpr hw
  | succ n ih =>
    intro l h hw
    by_cases hguard : h - l > 2 * tol
    · by_cases hroot : f ((l + h) / 2) = 0
      · exact ⟨(l + h) / 2, bisectLoop_succ_root hguard hroot⟩
      · have hw' : ∀ s : ℚ, s = (h - l) / 2 → s ≤ 2 ^ n * (2 * tol) := by
          intro s hs
          rw [hs]
          rw [pow_succ] at hw
          linarith
        by_cases hsgn : f l * f ((l + h) / 2) > 0
        · obtain ⟨r, hr⟩ := ih ((l + h) / 2) h (hw' _ (by ring))
          exact ⟨r, by rw [bisectLoop_succ_left hguard hroot hsgn]; exact hr⟩
        · obtain ⟨r, hr⟩ := ih l ((l + h) / 2) (hw' _ (by ring))
          exact ⟨r, by rw [bisectLoop_succ_right hguard hroot hsgn]; exact hr⟩
    · exact ⟨(l + h) / 2, bisectLoop_stop (n + 1) hguard⟩

theorem bisectLoop_fuel_mono {f : ℚ → ℚ} {tol : ℚ} :
    ∀ (fuel : Nat) (l h r : ℚ) (more : Nat), fuel ≤ more →
      bisectLoop f tol fuel l h = some r →
      bisectLoop f tol more l h = some r := by
  intro fuel
  induction fuel with
  | zero =>
    intro l h r more _ hrun
    by_cases hguard : h - l > 2 * tol
    · rw [bisectLoop_zero_run hguard] at hrun; exact absurd hrun (by simp)
    · rw [bisectLoop_stop 0 hguard] at hrun
      rw [bisectLoop_stop more hguard]; exact hrun
  | succ n ih =>
    intro l h r more hle hrun
    cases more with
    | zero => omega
    | succ k =>
      by_cases hguard : h - l > 2 * tol
      · by_cases hroot : f ((l + h) / 2) = 0
        · rw [bisectLoop_succ_root hguard hroot] at hrun
          rw [bisectLoop_succ_root hguard hroot]; exact hrun
        · by_cases hsgn : f l * f ((l + h) / 2) > 0
          · rw [bisectLoop_succ_left hguard hroot hsgn] at hrun
            rw [bisectLoop_succ_left hguard hroot hsgn]
            exact ih _ _ _ k (by omega) hrun
          · rw [bisectLoop_succ_right hguard hroot hsgn] at hrun
            rw [bisectLoop_succ_right hguard hroot hsgn]
            exact ih _ _ _ k (by omega) hrun
      · rw [bisectLoop_stop (n + 1) hguard] at hrun
        rw [bisectLoop_stop (k + 1) hguard]; exact hrun

/-- C7: each pass of the `bisection` loop replaces one endpoint by the
midpoint, exactly halving the bracket width; consequently, for any positive
tolerance and a valid bracket the loop terminates on its own — some finite
fuel suffices and the result is then independent of any larger fuel, so
`bisection` needs no maximum-iteration parameter. -/
theorem bisection_halving_termination (f : ℚ → ℚ) (l h tol : ℚ)
    (htol : 0 < tol) (hsign : f l * f h < 0) :
    (∀ fuel : Nat, 2 * tol < h - l → ¬ f ((l + h) / 2) = 0 →
      ((bisectLoop f tol (fuel + 1) l h = bisectLoop f tol fuel ((l + h) / 2) h ∧
          h - (l + h) / 2 = (h - l) / 2) ∨
        (bisectLoop f tol (fuel + 1) l h = bisectLoop f tol fuel l ((l + h) / 2) ∧
          (l + h) / 2 - l = (h - l) / 2))) ∧
    ∃ N r, ∀ fuel : Nat, N ≤ fuel → bisection f l h tol fuel = BRes.value r := by
  constructor
  · intro fuel hguard hroot
    by_cases hsgn : f l * f ((l + h) / 2) > 0
    · exact Or.inl ⟨bisectLoop_succ_left hguard hroot hsgn, by ring⟩
    · exact Or.inr ⟨bisectLoop_succ_right hguard hroot hsgn, by ring⟩
  · obtain ⟨N, hN⟩ := pow_unbounded_of_one_lt ((h - l) / (2 * tol)) (by norm_num : (1 : ℚ) < 2)
    have hw : h - l ≤ 2 ^ N * (2 * tol) := by
      have h2tol : (0 : ℚ) < 2 * tol := by linarith
      calc h - l = (h - l) / (2 * tol) * (2 * tol) := by field_simp
        _ ≤ 2 ^ N * (2 * tol) := by
            have := le_of_lt hN
            exact mul_le_mul_of_nonneg_right this (le_of_lt h2tol)
    obtain ⟨r, hr⟩ := bisectLoop_isSome_of_width N l h hw
    refine ⟨N, r, fun fuel hfuel => ?_⟩
    unfold bisection
    rw [if_neg (not_le.mpr hsign)]
    rw [bisectLoop_fuel_mono N l h r fuel hfuel hr]

/-- Witness for C7: `f = id` on `[-1, 2]` with `tol = 1`. -/
theorem bisection_halving_termination_witness :
    (∀ fuel : Nat, 2 * 1 < 2 - (-1 : ℚ) → ¬ (fun t => t) (((-1 : ℚ) + 2) / 2) = 0 →
      ((bisectLoop (fun t => t) 1 (fuel + 1) (-1 : ℚ) 2 =
          bisectLoop (fun t => t) 1 fuel (((-1 : ℚ) + 2) / 2) 2 ∧
          2 - ((-1 : ℚ) + 2) / 2 = (2 - (-1 : ℚ)) / 2) ∨
        (bisectLoop (fun t => t) 1 (fuel + 1) (-1 : ℚ) 2 =
          bisectLoop (fun t => t) 1 fuel (-1 : ℚ) (((-1 : ℚ) + 2) / 2) ∧
          ((-1 : ℚ) + 2) / 2 - (-1 : ℚ) = (2 - (-1 : ℚ)) / 2))) ∧
    ∃ N r, ∀ fuel : Nat, N ≤ fuel →
      bisection (fun t => t) (-1 : ℚ) 2 1 fuel = BRes.value r :=
  bisection_halving_termination (fun t => t) (-1) 2 1 (by norm_num) (by norm_num)

theorem bisect_mid_near_root {f : ℝ → ℝ} {tol l h : ℝ} (htol : 0 < tol)
    (hc : Continuous f) (hlh : l < h) (hsign : f l * f h < 0)
    (hguard : ¬ h - l > 2 * tol) :
    l ≤ (l + h) / 2 ∧ (l + h) / 2 ≤ h ∧
      ∃ c, f c = 0 ∧ |(l + h) / 2 - c| ≤ tol := by
  have hw : h - l ≤ 2 * tol := not_lt.mp hguard
  refine ⟨by linarith, by linarith, ?_⟩
  rcases mul_neg_iff.mp hsign with ⟨hpos, hneg⟩ | ⟨hneg, hpos⟩
  · obtain ⟨c, hcmem, hfc⟩ :=
      intermediate_value_Ioo' (le_of_lt hlh) hc.continuousOn
        (Set.mem_Ioo.mpr ⟨hneg, hpos⟩)
    exact ⟨c, hfc, abs_le.mpr
      ⟨by linarith [hcmem.1, hcmem.2], by linarith [hcmem.1, hcmem.2]⟩⟩
  · obtain ⟨c, hcmem, hfc⟩ :=
      intermediate_value_Ioo (le_of_lt hlh) hc.continuousOn
        (Set.mem_Ioo.mpr ⟨hneg, hpos⟩)
    exact ⟨c, hfc, abs_le.mpr
      ⟨by linarith [hcmem.1, hcmem.2], by linarith [hcmem.1, hcmem.2]⟩⟩

theorem bisectLoop_near_root (f : ℝ → ℝ) (tol : ℝ) (htol : 0 < tol)
    (hc : Continuous f) :
    ∀ (fuel : Nat) (l h : ℝ), l < h → f l * f h < 0 →
      ∀ r, bisectLoop f tol fuel l h = some r →
        l ≤ r ∧ r ≤ h ∧ ∃ c, f c = 0 ∧ |r - c| ≤ tol := by
  intro fuel
  induction fuel with
  | zero =>
    intro l h hlh hsign r hrun
    by_cases hguard : h - l > 2 * tol
    · rw [bisectLoop_zero_run hguard] at hrun; exact absurd hrun (by simp)
    · rw [bisectLoop_stop 0 hguard] at hrun
      have hr : ((l + h) / 2 : ℝ) = r := by simpa using hrun
      exact hr ▸ bisect_mid_near_root htol hc hlh hsign hguard
  | succ n ih =>
    intro l h hlh hsign r hrun
    by_cases hguard : h - l > 2 * tol
    · by_cases hroot : f ((l + h) / 2) = 0
      · rw [bisectLoop_succ_root hguard hroot] at hrun
        have hr : ((l + h) / 2 : ℝ) = r := by simpa using hrun
        subst hr
        exact ⟨by linarith, by linarith, (l + h) / 2, hroot,
          by rw [sub_self, abs_zero]; exact le_of_lt htol⟩
      · by_cases hsgn : f l * f ((l + h) / 2) > 0
        · rw [bisectLoop_succ_left hguard hroot hsgn] at hrun
          have hmh : (l + h) / 2 < h := by linarith
          have hsign' : f ((l + h) / 2) * f h < 0 := by
            nlinarith [mul_pos hsgn (neg_pos.mpr hsign), sq_nonneg (f l)]
          obtain ⟨h1, h2, hroot'⟩ := ih ((l + h) / 2) h hmh hsign' r hrun
          exact ⟨by linarith, h2, hroot'⟩
        · rw [bisectLoop_succ_right hguard hroot hsgn] at hrun
          have hlm : l < (l + h) / 2 := by linarith
          have hfl : f l ≠ 0 := by
            intro h0
            rw [h0, zero_mul] at hsign
            exact lt_irrefl 0 hsign
          have hsign' : f l * f ((l + h) / 2) < 0 :=
            lt_of_le_of_ne (not_lt.mp hsgn) (mul_ne_zero hfl hroot)
          obtain ⟨h1, h2, hroot'⟩ := ih l ((l + h) / 2) hlm hsign' r hrun
          exact ⟨h1, by linarith, hroot'⟩
    · rw [bisectLoop_stop (n + 1) hguard] at hrun
      have hr : ((l + h) / 2 : ℝ) = r := by simpa using hrun
      exact hr ▸ bisect_mid_near_root htol hc hlh hsign hguard

/-- C2: whenever `bisection`, run on a continuous `f` with a bracket
`l < h` showing a sign change and a positive tolerance, returns a value
`r`, that value lies inside the initial interval `[l, h]` and is within
`tol` of an exact root of `f`. -/
theorem bisection_near_root (f : ℝ → ℝ) (l h tol : ℝ) (fuel : Nat) (r : ℝ)
    (hc : Continuous f) (hlh : l < h) (hsign : f l * f h < 0) (htol : 0 < tol)
    (hres : bisection f l h tol fuel = BRes.value r) :
    l ≤ r ∧ r ≤ h ∧ ∃ c, f c = 0 ∧ |r - c| ≤ tol := by
  unfold bisection at hres
  rw [if_neg (not_le.mpr hsign)] at hres
  cases hbl : bisectLoop f tol fuel l h with
  | none => rw [hbl] at hres; exact absurd hres (by simp)
  | some v =>
    rw [hbl] at hres
    have hv : v = r := by simpa using hres
    subst hv
    exact bisectLoop_near_root f tol htol hc fuel l h hlh hsign v hbl

/-- Witness for C2: `f = id` on `[-1, 2]`, `tol = 1`, fuel `1`; the call
returns `-1/4`, which lies in `[-1, 2]` within `1` of the root `0`. -/
theorem bisection_near_root_witness :
    (-1 : ℝ) ≤ -1/4 ∧ (-1/4 : ℝ) ≤ 2 ∧
      ∃ c, (fun t : ℝ => t) c = 0 ∧ |(-1/4 : ℝ) - c| ≤ 1 :=
  bisection_near_root (fun t => t) (-1) 2 1 1 (-1/4) continuous_id
    (by norm_num) (by norm_num) (by norm_num)
    (by
      unfold bisection
      rw [if_neg (by norm_num)]
      rw [bisectLoop_succ_right (by norm_num) (by norm_num) (by norm_num)]
      rw [bisectLoop_stop 0 (by norm_num)]
      norm_num)

/-! ## Newton-Raphson for systems, from
`def newton_system(F, J, X0, tol=1e-6, max_iter=100)` -/

/-- Exact model of `np.linalg.solve(A, b)`: fails exactly on a singular
matrix (`det = 0`), otherwise returns the unique solution of `A x = b`
via the adjugate formula `x = det(A)⁻¹ · adj(A) · b`. -/
def linSolve {n : Nat} (A : Matrix (Fin n) (Fin n) ℚ) (b : Fin n → ℚ) :
    Option (Fin n → ℚ) :=
  if A.det = 0 then none else some ((A.det)⁻¹ • (A.adjugate.mulVec b))

theorem linSolve_solves {n : Nat} {A : Matrix (Fin n) (Fin n) ℚ}
    {b v : Fin n → ℚ} (h : linSolve A b = some v) : A.mulVec v = b := by
  unfold linSolve at h
  by_cases hdet : A.det = 0
  · rw [if_pos hdet] at h; exact absurd h (by simp)
  · rw [if_neg hdet] at h
    have hv : (A.det)⁻¹ • (A.adjugate.mulVec b) = v := by simpa using h
    subst hv
    rw [Matrix.mulVec_smul, Matrix.mulVec_mulVec, Matrix.mul_adjugate,
      Matrix.smul_mulVec_assoc, Matrix.one_mulVec, smul_smul,
      inv_mul_cancel₀ hdet, one_smul]

theorem linSolve_none_iff {n : Nat} {A : Matrix (Fin n) (Fin n) ℚ}
    {b : Fin n → ℚ} : linSolve A b = none ↔ A.det = 0 := by
  unfold linSolve
  by_cases hdet : A.det = 0
  · rw [if_pos hdet]; simp [hdet]
  · rw [if_neg hdet]; simp [hdet]

/-- The convergence test of `newton_system`: `np.linalg.norm(dX) < tol`,
stated squared so that it is exact over `ℚ` (see `normLt_iff_norm_lt`). -/
def normLt {n : Nat} (v : Fin n → ℚ) (tol : ℚ) : Prop :=
  0 < tol ∧ (∑ i, v i ^ 2) < tol ^ 2

instance normLtDecidable {n : Nat} (v : Fin n → ℚ) (tol : ℚ) :
    Decidable (normLt v tol) := by
  unfold normLt; infer_instance

/-- `normLt v tol` holds exactly when the Euclidean norm
`‖v‖ = √(∑ v i ²)` is below `tol`, so it is a faithful rendering of
`np.linalg.norm(dX) < tol`. -/
theorem normLt_iff_norm_lt {n : Nat} (v : Fin n → ℚ) (tol : ℚ) :
    normLt v tol ↔ Real.sqrt (∑ i, ((v i : ℝ)) ^ 2) < (tol : ℝ) := by
  constructor
  · rintro ⟨htol, hsum⟩
    have htolR : (0 : ℝ) < tol := by exact_mod_cast htol
    rw [Real.sqrt_lt' htolR]
    exact_mod_cast hsum
  · intro h
    have htolR : (0 : ℝ) < tol := lt_of_le_of_lt (Real.sqrt_nonneg _) h
    refine ⟨by exact_mod_cast htolR, ?_⟩
    rw [Real.sqrt_lt' htolR] at h
    exact_mod_cast h

/-- Result of a `newton_system` call: a returned vector, the
`numpy.linalg.LinAlgError` raised by `np.linalg.solve` on a singular
Jacobian, or the
`ValueError("Maximum iterations reached without convergence")`. -/
inductive SysRes (n : Nat) where
  | ok : (Fin n → ℚ) → SysRes n
  | singular : SysRes n
  | noConv : SysRes n
deriving DecidableEq

/-- Embedding of `newton_system(F, J, X0, tol, max_iter)` from the source:
```
for _ in range(max_iter):
    F0 = F(X0)
    J0 = J(X0)
    dX = np.linalg.solve(J0, -F0)
    X  = X0 + dX
    if np.linalg.norm(dX) < tol:
        return X
    X0 = X
raise ValueError("Maximum iterations reached without convergence")
``` -/
def newton_system {n : Nat} (F : (Fin n → ℚ) → Fin n → ℚ)
    (J : (Fin n → ℚ) → Matrix (Fin n) (Fin n) ℚ) :
    (Fin n → ℚ) → ℚ → Nat → SysRes n
  | _, _, 0 => .noConv
  | X0, tol, k + 1 =>
    match linSolve (J X0) (fun i => -(F X0 i)) with
    | none => .singular
    | some dX =>
      if normLt dX tol then .ok (fun i => X0 i + dX i)
      else newton_system F J (fun i => X0 i + dX i) tol k

/-- `sysOrbit F J tol k X0 = some Y` iff the loop of `newton_system`,
started at `X0`, runs `k` full iterations without raising or returning and
its iterate vector is then `Y`. -/
def sysOrbit {n : Nat} (F : (Fin n → ℚ) → Fin n → ℚ)
    (J : (Fin n → ℚ) → Matrix (Fin n) (Fin n) ℚ) (tol : ℚ) :
    Nat → (Fin n → ℚ) → Option (Fin n → ℚ)
  | 0, X0 => some X0
  | k + 1, X0 =>
    match linSolve (J X0) (fun i => -(F X0 i)) with
    | none => none
    | some dX =>
      if normLt dX tol then none
      else sysOrbit F J tol k (fun i => X0 i + dX i)

theorem newton_system_succ_singular {n : Nat}
    {F : (Fin n → ℚ) → Fin n → ℚ}
    {J : (Fin n → ℚ) → Matrix (Fin n) (Fin n) ℚ} {X0 : Fin n → ℚ} {tol : ℚ}
    {k : Nat} (h : linSolve (J X0) (fun i => -(F X0 i)) = none) :
    newton_system F J X0 tol (k + 1) = SysRes.singular := by
  simp only [newton_system, h]

theorem newton_system_succ_conv {n : Nat}
    {F : (Fin n → ℚ) → Fin n → ℚ}
    {J : (Fin n → ℚ) → Matrix (Fin n) (Fin n) ℚ}
    {X0 dX : Fin n → ℚ} {tol : ℚ} {k : Nat}
    (h : linSolve (J X0) (fun i => -(F X0 i)) = some dX)
    (hnorm : normLt dX tol) :
    newton_system F J X0 tol (k + 1) = SysRes.ok (fun i => X0 i + dX i) := by
  simp only [newton_system, h]
  rw [if_pos hnorm]

theorem newton_system_succ_step {n : Nat}
    {F : (Fin n → ℚ) → Fin n → ℚ}
    {J : (Fin n → ℚ) → Matrix (Fin n) (Fin n) ℚ}
    {X0 dX : Fin n → ℚ} {tol : ℚ} {k : Nat}
    (h : linSolve (J X0) (fun i => -(F X0 i)) = some dX)
    (hnorm : ¬ normLt dX tol) :
    newton_system F J X0 tol (k + 1) =
      newton_system F J (fun i => X0 i + dX i) tol k := by
  simp only [newton_system, h]
  rw [if_neg hnorm]

theorem sysOrbit_succ_singular {n : Nat}
    {F : (Fin n → ℚ) → Fin n → ℚ}
    {J : (Fin n → ℚ) → Matrix (Fin n) (Fin n) ℚ} {X0 : Fin n → ℚ} {tol : ℚ}
    {k : Nat} (h : linSolve (J X0) (fun i => -(F X0 i)) = none) :
    sysOrbit F J tol (k + 1) X0 = none := by
  simp only [sysOrbit, h]

theorem sysOrbit_succ_conv {n : Nat}
    {F : (Fin n → ℚ) → Fin n → ℚ}
    {J : (Fin n → ℚ) → Matrix (Fin n) (Fin n) ℚ}
    {X0 dX : Fin n → ℚ} {tol : ℚ} {k : Nat}
    (h : linSolve (J X0) (fun i => -(F X0 i)) = some dX)
    (hnorm : normLt dX tol) :
    sysOrbit F J tol (k + 1) X0 = none := by
  simp only [sysOrbit, h]
  rw [if_pos hnorm]

theorem sysOrbit_succ_step {n : Nat}
    {F : (Fin n → ℚ) → Fin n → ℚ}
    {J : (Fin n → ℚ) → Matrix (Fin n) (Fin n) ℚ}
    {X0 dX : Fin n → ℚ} {tol : ℚ} {k : Nat}
    (h : linSolve (J X0) (fun i => -(F X0 i)) = some dX)
    (hnorm : ¬ normLt dX tol) :
    sysOrbit F J tol (k + 1) X0 = sysOrbit F J tol k (fun i => X0 i + dX i) := by
  simp only [sysOrbit, h]
  rw [if_neg hnorm]

/-- C4: each iteration of `newton_system` solves the linear system
`J(x) · dx = -F(x)` and updates `x` to `x + dx`; it returns the updated
vector exactly when the norm of `dx` drops below `tol` at a reached
iterate; it raises the linear-solve error exactly when the Jacobian is
singular (`det = 0`) at a reached iterate within the budget; and it raises
the no-convergence error exactly when all `max_iter` iterations complete
without returning or raising. -/
theorem newton_system_outcome_trichotomy {n : Nat}
    (F : (Fin n → ℚ) → Fin n → ℚ)
    (J : (Fin n → ℚ) → Matrix (Fin n) (Fin n) ℚ)
    (X0 : Fin n → ℚ) (tol : ℚ) (kmax : Nat) :
    ((∃ X, newton_system F J X0 tol kmax = SysRes.ok X) ↔
      ∃ k, k < kmax ∧ ∃ Xp dX, sysOrbit F J tol k X0 = some Xp ∧
        linSolve (J Xp) (fun i => -(F Xp i)) = some dX ∧
        (J Xp).mulVec dX = (fun i => -(F Xp i)) ∧ normLt dX tol ∧
        newton_system F J X0 tol kmax = SysRes.ok (fun i => Xp i + dX i)) ∧
    (newton_system F J X0 tol kmax = SysRes.singular ↔
      ∃ k, k < kmax ∧ ∃ Y, sysOrbit F J tol k X0 = some Y ∧ (J Y).det = 0) ∧
    (newton_system F J X0 tol kmax = SysRes.noConv ↔
      ∃ Y, sysOrbit F J tol kmax X0 = some Y) := by
  induction kmax generalizing X0 with
  | zero =>
    refine ⟨?_, ?_, ?_⟩ <;> simp [newton_system, sysOrbit]
  | succ m ih =>
    cases hsolve : linSolve (J X0) (fun i => -(F X0 i)) with
    | none =>
      have hdet : (J X0).det = 0 := linSolve_none_iff.mp hsolve
      have hres : newton_system F J X0 tol (m + 1) = SysRes.singular :=
        newton_system_succ_singular hsolve
      refine ⟨?_, ?_, ?_⟩
      · rw [hres]
        constructor
        · rintro ⟨X, hX⟩; exact absurd hX (by simp)
        · rintro ⟨k, hk, Xp, dX, horb, hsl, -, -, -⟩
          cases k with
          | zero =>
            simp only [sysOrbit, Option.some.injEq] at horb
            subst horb
            rw [hsolve] at hsl; exact absurd hsl (by simp)
          | succ j =>
            rw [sysOrbit_succ_singular hsolve] at horb; exact absurd horb (by simp)
      · rw [hres]
        constructor
        · intro _; exact ⟨0, Nat.succ_pos m, X0, rfl, hdet⟩
        · intro _; rfl
      · rw [hres]
        constructor
        · intro hfalse; exact absurd hfalse (by simp)
        · rintro ⟨Y, horb⟩
          rw [sysOrbit_succ_singular hsolve] at horb; exact absurd horb (by simp)
    | some dX =>
      by_cases hnorm : normLt dX tol
      · have hres : newton_system F J X0 tol (m + 1) =
            SysRes.ok (fun i => X0 i + dX i) :=
          newton_system_succ_conv hsolve hnorm
        refine ⟨?_, ?_, ?_⟩
        · rw [hres]
          constructor
          · intro _
            exact ⟨0, Nat.succ_pos m, X0, dX, rfl, hsolve,
              linSolve_solves hsolve, hnorm, rfl⟩
          · rintro ⟨k, hk, Xp, dX', horb, hsl, hmul, hn, heq⟩; exact ⟨_, heq⟩
        · rw [hres]
          constructor
          · intro hfalse; exact absurd hfalse (by simp)
          · rintro ⟨k, hk, Y, horb, hdet⟩
            cases k with
            | zero =>
              simp only [sysOrbit, Option.some.injEq] at horb
              subst horb
              rw [linSolve_none_iff.mpr hdet] at hsolve
              exact absurd hsolve (by simp)
            | succ j =>
              rw [sysOrbit_succ_conv hsolve hnorm] at horb
              exact absurd horb (by simp)
        · rw [hres]
          constructor
          · intro hfalse; exact absurd hfalse (by simp)
          · rintro ⟨Y, horb⟩
            rw [sysOrbit_succ_conv hsolve hnorm] at horb
            exact absurd horb (by simp)
      · have hres : newton_system F J X0 tol (m + 1) =
            newton_system F J (fun i => X0 i + dX i) tol m :=
          newton_system_succ_step hsolve hnorm
        have horbstep : ∀ k, sysOrbit F J tol (k + 1) X0 =
            sysOrbit F J tol k (fun i => X0 i + dX i) :=
          fun k => sysOrbit_succ_step hsolve hnorm
        obtain ⟨ih1, ih2, ih3⟩ := ih (fun i => X0 i + dX i)
        refine ⟨?_, ?_, ?_⟩
        · rw [hres, ih1]
          constructor
          · rintro ⟨k, hk, Xp, dX', horb, hsl, hmul, hn, heq⟩
            exact ⟨k + 1, by omega, Xp, dX', by rw [horbstep]; exact horb,
              hsl, hmul, hn, heq⟩
          · rintro ⟨k, hk, Xp, dX', horb, hsl, hmul, hn, heq⟩
            cases k with
            | zero =>
              simp only [sysOrbit, Option.some.injEq] at horb
              subst horb
              rw [hsolve] at hsl
              have hdx : dX = dX' := by simpa using hsl
              subst hdx
              exact absurd hn hnorm
            | succ j =>
              exact ⟨j, by omega, Xp, dX', by rw [← horbstep]; exact horb,
                hsl, hmul, hn, heq⟩
        · rw [hres, ih2]
          constructor
          · rintro ⟨k, hk, Y, horb, hdet⟩
            exact ⟨k + 1, by omega, Y, by rw [horbstep]; exact horb, hdet⟩
          · rintro ⟨k, hk, Y, horb, hdet⟩
            cases k with
            | zero =>
              simp only [sysOrbit, Option.some.injEq] at horb
              subst horb
              rw [linSolve_none_iff.mpr hdet] at hsolve
              exact absurd hsolve (by simp)
            | succ j =>
              exact ⟨j, by omega, Y, by rw [← horbstep]; exact horb, hdet⟩
        · rw [hres, ih3]
          constructor
          · rintro ⟨Y, horb⟩
            exact ⟨Y, by rw [horbstep]; exact horb⟩
          · rintro ⟨Y, horb⟩
            exact ⟨Y, by rw [← horbstep]; exact horb⟩

/-- Witness for C4: the one-dimensional system `F(X) = X - 1` with constant
Jacobian `1`, started at `0` with `tol = 2`, converges on the first
iteration. -/
theorem newton_system_outcome_trichotomy_witness :
    ∃ k, k < 100 ∧ ∃ Xp dX,
      sysOrbit (fun X _ => X 0 - 1) (fun _ => 1) 2 k (fun _ => (0 : ℚ)) = some Xp ∧
      linSolve ((fun _ => (1 : Matrix (Fin 1) (Fin 1) ℚ)) Xp)
        (fun i => -((fun (X : Fin 1 → ℚ) (_ : Fin 1) => X 0 - 1) Xp i)) = some dX ∧
      ((fun _ => (1 : Matrix (Fin 1) (Fin 1) ℚ)) Xp).mulVec dX =
        (fun i => -((fun (X : Fin 1 → ℚ) (_ : Fin 1) => X 0 - 1) Xp i)) ∧
      normLt dX 2 ∧
      newton_system (fun X _ => X 0 - 1) (fun _ => 1) (fun _ => (0 : ℚ)) 2 100 =
        SysRes.ok (fun i => Xp i + dX i) :=
  by
  have hsolve : linSolve (1 : Matrix (Fin 1) (Fin 1) ℚ)
      (fun _ : Fin 1 => -((fun _ : Fin 1 => (0 : ℚ)) 0 - 1)) =
      some (fun _ : Fin 1 => -((fun _ : Fin 1 => (0 : ℚ)) 0 - 1)) := by
    unfold linSolve
    rw [if_neg (by simp)]
    refine congrArg some ?_
    funext i
    simp [Matrix.det_one, Matrix.adjugate_one, Matrix.one_mulVec]
  refine (newton_system_outcome_trichotomy (fun X _ => X 0 - 1) (fun _ => 1)
      (fun _ => (0 : ℚ)) 2 100).1.mp ⟨_, newton_system_succ_conv hsolve ?_⟩
  exact ⟨by norm_num, by norm_num [Fin.sum_univ_one]⟩

/-! ## RK4, from `def RK4(f, x0, t0, dt, n)` in the ODE lab notebook -/

/-- One pass of the `RK4` loop body exactly as implemented in the source:
```
k1 = dt * np.array(f(X[-1]         ))
k2 = dt * np.array(f(X[-1] + 0.5*k1))
k3 = dt * np.array(f(X[-1] + 0.5*k1))
k4 = dt * np.array(f(X[-1] +     k3))
X.append(X[-1] + k1/6 + k2/3 + k3/3 + k4/6)
```
(the third stage is computed from `0.5*k1`, exactly as written there). -/
def RK4step {V : Type} [AddCommGroup V] [Module ℚ V] (f : V → V) (dt : ℚ)
    (x : V) : V :=
  let k1 := dt • f x
  let k2 := dt • f (x + (1/2 : ℚ) • k1)
  let k3 := dt • f (x + (1/2 : ℚ) • k1)
  let k4 := dt • f (x + k3)
  x + (1/6 : ℚ) • k1 + (1/3 : ℚ) • k2 + (1/3 : ℚ) • k3 + (1/6 : ℚ) • k4

/-- Embedding of `RK4(f, x0, t0, dt, n)`: the accumulated time list and
state list (`T`, `X`) of the loop. -/
def RK4 {V : Type} [AddCommGroup V] [Module ℚ V] (f : V → V) (x0 : V)
    (t0 dt : ℚ) : Nat → List ℚ × List V
  | 0 => ([t0], [x0])
  | n + 1 =>
    let p := RK4 f (RK4step f dt x0) (t0 + dt) dt n
    (t0 :: p.1, x0 :: p.2)

/-- Modelled from the spec ("a textbook RK4 stepper") and from the
notebook's own displayed formulas directly above the code, which state
`k3 = dt * f(X + k2/2)`: the standard fourth-order Runge-Kutta stage
computation. -/
def RK4refStep {V : Type} [AddCommGroup V] [Module ℚ V] (f : V → V) (dt : ℚ)
    (x : V) : V :=
  let k1 := dt • f x
  let k2 := dt • f (x + (1/2 : ℚ) • k1)
  let k3 := dt • f (x + (1/2 : ℚ) • k2)
  let k4 := dt • f (x + k3)
  x + (1/6 : ℚ) • k1 + (1/3 : ℚ) • k2 + (1/3 : ℚ) • k3 + (1/6 : ℚ) • k4

/-- C8 fails on the code: the implemented stepper evaluates `k3` at
`X + k1/2` (a copy of the `k2` line), not at `X + k2/2` as the textbook
scheme displayed in the same notebook requires.  With `f = id`, `dt = 1`,
`x0 = 1` the code produces `31/12` for the next state while the textbook
stepper produces `65/24`, and the full one-step `RK4` run records the
code's value. -/
theorem RK4_third_stage_mismatch :
    RK4step (fun x : ℚ => x) 1 1 = 31/12 ∧
    RK4refStep (fun x : ℚ => x) 1 1 = 65/24 ∧
    RK4step (fun x : ℚ => x) 1 1 ≠ RK4refStep (fun x : ℚ => x) 1 1 ∧
    (RK4 (fun x : ℚ => x) 1 0 1 1).2 = [1, 31/12] := by
  have h1 : RK4step (fun x : ℚ => x) 1 1 = 31/12 := by
    norm_num [RK4step, smul_eq_mul]
  have h2 : RK4refStep (fun x : ℚ => x) 1 1 = 65/24 := by
    norm_num [RK4refStep, smul_eq_mul]
  refine ⟨h1, h2, ?_, ?_⟩
  · rw [h1, h2]; norm_num
  · simp [RK4, h1]

/-! ## Solver signatures (C9) -/

/-- Parameter list of `def bisection(f, l, h, tol=1e-6)`, with the numeric
default of each optional parameter (`1e-6` transcribed exactly as
`1/1000000`); transcribed from the source signature. -/
def bisectionParams : List (String × Option ℚ) :=
  [("f", none), ("l", none), ("h", none), ("tol", some (1/1000000))]

/-- Parameter list of `def newton(f, df, x0, tol=1e-6, imax=100)`. -/
def newtonParams : List (String × Option ℚ) :=
  [("f", none), ("df", none), ("x0", none), ("tol", some (1/1000000)),
   ("imax", some 100)]

/-- Parameter list of `def secant(f, x0, x1, tol=1e-6, imax=100)`. -/
def secantParams : List (String × Option ℚ) :=
  [("f", none), ("x0", none), ("x1", none), ("tol", some (1/1000000)),
   ("imax", some 100)]

/-- Parameter list of
`def newton_system(F, J, X0, tol=1e-6, max_iter=100)`. -/
def newtonSystemParams : List (String × Option ℚ) :=
  [("F", none), ("J", none), ("X0", none), ("tol", some (1/1000000)),
   ("max_iter", some 100)]

/-- A signature offers the optional tolerance parameter with default
`1e-6`. -/
def hasTolDefault (ps : List (String × Option ℚ)) : Prop :=
  ("tol", some (1/1000000)) ∈ ps

/-- A signature offers an optional maximum-iteration-count parameter with
default `100` (named `imax` or `max_iter` in this repository). -/
def hasIterDefault (ps : List (String × Option ℚ)) : Prop :=
  ("imax", some (100 : ℚ)) ∈ ps ∨ ("max_iter", some (100 : ℚ)) ∈ ps

/-- C9 fails at the concrete solver `bisection`: it has the default
tolerance parameter but no maximum-iteration-count parameter at all. -/
theorem bisection_lacks_iter_param :
    hasTolDefault bisectionParams ∧ ¬ hasIterDefault bisectionParams := by
  constructor
  · simp [hasTolDefault, bisectionParams]
  · intro h
    rcases h with h | h <;> simp [bisectionParams] at h

/-- C9 (amended): `newton`, `secant` and `newton_system` each accept an
optional tolerance defaulting to `1e-6` and an optional
maximum-iteration count defaulting to `100`; `bisection` accepts the
optional tolerance defaulting to `1e-6` but has no maximum-iteration
parameter (its loop needs none, see C7). -/
theorem solver_signature_defaults :
    hasTolDefault bisectionParams ∧ hasTolDefault newtonParams ∧
    hasTolDefault secantParams ∧ hasTolDefault newtonSystemParams ∧
    hasIterDefault newtonParams ∧ hasIterDefault secantParams ∧
    hasIterDefault newtonSystemParams ∧ ¬ hasIterDefault bisectionParams := by
  refine ⟨?_, ?_, ?_, ?_, ?_, ?_, ?_, ?_⟩ <;>
    simp [hasTolDefault, hasIterDefault, bisectionParams, newtonParams,
      secantParams, newtonSystemParams]
